import Mathlib

/-!
Verification development for the SPUDlib eventing core (`ls_eventing`).

The repository ships the public header `src/include/ls_eventing.h` and the
test suite `src/test/ls_eventing_test.c`; the dispatcher implementation
itself (`ls_eventing.c`) is not among the provided sources.  The
definitions below therefore embed the dispatcher as described by the
specification (data model, bind/unbind semantics, drain algorithm,
reference-counted teardown, pre-allocated triggers), refined by the
behaviour the repository's own test suite pins down.  Function names
follow the header.

Opaque C pointers (callbacks, user arguments, payloads) are modelled as
natural numbers: the C code compares them only by pointer equality.
Callbacks are given a small-step behaviour: each callback identifier is
mapped by an environment to the list of dispatcher operations it performs
when invoked (set the handled bit, trigger an event, bind, unbind,
destroy the dispatcher).  The audit trail of the test suite is modelled
as a log of invocations.
-/

/-- Error codes of the `ls_err` channel recognized by the eventing core. -/
inductive ls_err where
  | LS_ERR_NO_MEMORY
  | LS_ERR_INVALID_ARG
  | LS_ERR_INVALID_STATE
deriving Repr, DecidableEq

/-- ASCII-only case folding of a single character (no locale). -/
def asciiLowerChar (c : Char) : Char :=
  if 'A' ≤ c ∧ c ≤ 'Z' then Char.ofNat (c.toNat + 32) else c

/-- ASCII-only case folding of an event name, character by character. -/
def asciiLower (s : String) : String :=
  ⟨s.data.map asciiLowerChar⟩

/-- Modelled from the spec: the dispatcher's event registry (the missing
`ls_eventing.c` keeps a mapping from names to events).  Events are kept in
creation order with their original casing; an event is identified by its
index in this list. -/
abbrev EventNames := List String

/-- Modelled from the spec: `ls_event_dispatcher_create_event` (missing
`ls_eventing.c`).  An empty name fails with `LS_ERR_INVALID_ARG`; a name
whose ASCII case folding collides with an existing event fails with
`LS_ERR_INVALID_STATE`; otherwise the event is appended, keeping the
original casing. -/
def ls_event_dispatcher_create_event (events : EventNames) (name : String) :
    Except ls_err EventNames :=
  if name = "" then .error .LS_ERR_INVALID_ARG
  else if events.any (fun n => asciiLower n == asciiLower name) then
    .error .LS_ERR_INVALID_STATE
  else .ok (events ++ [name])

/-- Modelled from the spec: `ls_event_dispatcher_get_event` (missing
`ls_eventing.c`).  Lookup is ASCII case-insensitive; returns the index of
the matching event, if any. -/
def ls_event_dispatcher_get_event (events : EventNames) (name : String) :
    Option Nat :=
  events.findIdx? (fun n => asciiLower n == asciiLower name)

/-- Modelled from the spec: `ls_event_get_name` (missing `ls_eventing.c`).
Returns the original casing of the event's name. -/
def ls_event_get_name (events : EventNames) (i : Nat) : Option String :=
  events.get? i

/-- Callback identifier (a C function pointer; pointer equality only). -/
abbrev Cb := Nat

/-- Opaque user argument / payload pointer. -/
abbrev Arg := Nat

/-- Event identifier: index of the event in its dispatcher. -/
abbrev EvId := Nat

/-- Modelled from the spec: one node of an event's binding list (the
`ls_event_binding_t` of the missing `ls_eventing.c`): callback pointer,
user argument, and the two deferral flags. -/
structure Binding where
  cb : Cb
  arg : Arg
  pending_add : Bool
  pending_remove : Bool
deriving Repr, DecidableEq

/-- Modelled from the spec: the binding-list part of `ls_event_bind`
(missing `ls_eventing.c`).  Scan for an existing node with this callback:
if found, the node keeps its position, its pending-remove flag is
cancelled and its stored argument is replaced (the repository's
`ls_event_bindings_test` checks that a rebind overwrites the argument).
Otherwise a fresh node is appended at the tail, marked `pending_add` when
the dispatcher is currently running. -/
def bindList (running : Bool) (l : List Binding) (cb : Cb) (arg : Arg) :
    List Binding :=
  match l with
  | [] => [⟨cb, arg, running, false⟩]
  | b :: rest =>
    if b.cb = cb then { b with arg := arg, pending_remove := false } :: rest
    else b :: bindList running rest cb arg

/-- Modelled from the spec: the binding-list part of `ls_event_unbind`
(missing `ls_eventing.c`).  Unknown callbacks are a silent no-op.  While
the dispatcher is running the node is left in place with `pending_remove`
set; otherwise it is unlinked immediately. -/
def unbindList (running : Bool) (l : List Binding) (cb : Cb) : List Binding :=
  match l with
  | [] => []
  | b :: rest =>
    if b.cb = cb then
      if running then { b with pending_remove := true } :: rest else rest
    else b :: unbindList running rest cb

/-- Modelled from the spec: end-of-moment reconciliation (missing
`ls_eventing.c`): unlink every pending-remove node and clear every
pending-add flag. -/
def reconcileList (l : List Binding) : List Binding :=
  (l.filter (fun b => !b.pending_remove)).map
    (fun b => { b with pending_add := false })

/-- Modelled from the spec: the operations a callback may perform on its
dispatcher while it is being invoked (missing `ls_eventing.c` callbacks
are arbitrary C functions; the claims only concern these dispatcher
re-entries). -/
inductive Act where
  | setHandled (b : Bool)
  | trigger (ev : EvId) (resCb : Option Nat)
  | bindAct (ev : EvId) (cb : Cb) (arg : Arg)
  | unbindAct (ev : EvId) (cb : Cb)
  | destroy
deriving Repr, DecidableEq

/-- Environment mapping every callback identifier to the dispatcher
operations its body performs when invoked. -/
abbrev Env := Cb → List Act

/-- Observable record of the delivery, mirroring the audit trail of
`ls_eventing_test.c`: a callback invocation logs the observed handled
bit, a result-callback invocation logs the final result, and a destroy
call logs whether the dispatcher's memory was still live right after it
returned. -/
inductive LogEntry where
  | cbCall (cb : Cb) (ev : EvId) (handled : Bool)
  | resultCall (resCb : Nat) (ev : EvId) (result : Bool)
  | destroyCall (aliveAfter : Bool)
deriving Repr, DecidableEq

/-- Predicate selecting the callback-invocation entries of a log. -/
def LogEntry.isCb : LogEntry → Bool
  | .cbCall _ _ _ => true
  | _ => false

/-- Handled bit observed (or produced) by a log entry. -/
def LogEntry.obs : LogEntry → Bool
  | .cbCall _ _ h => h
  | .resultCall _ _ r => r
  | .destroyCall a => a

/-- Callback identifier of a log entry. -/
def LogEntry.cbId : LogEntry → Nat
  | .cbCall c _ _ => c
  | .resultCall c _ _ => c
  | .destroyCall _ => 0

/-- Modelled from the spec: a queued triggering ("moment") of the missing
`ls_eventing.c`: target event, payload, optional result callback. -/
structure Moment where
  ev : EvId
  payload : Arg
  resCb : Option Nat
deriving Repr, DecidableEq

/-- Modelled from the spec: the state of one `ls_event_dispatcher`
(missing `ls_eventing.c`): per-event binding lists, the FIFO moment
queue, the `running` flag, the reference count of §4.4, whether the
dispatcher's memory is still live (`alive` tracks the first allocation of
`ls_event_dispatcher_create`, which is freed exactly when teardown runs),
and the index of the next allocator request (each request is answered by
an allocation oracle). -/
structure DState where
  events : List (List Binding)
  queue : List Moment
  running : Bool
  refcount : Nat
  alive : Bool
  allocIdx : Nat
deriving Repr, DecidableEq

/-- Allocation oracle: whether the nth allocator request succeeds.  The
tests install failing allocators (`mock_oom_malloc`). -/
abbrev AllocOracle := Nat → Bool

/-- Binding list of one event of the dispatcher. -/
def getBindings (st : DState) (ev : EvId) : List Binding :=
  (st.events.get? ev).getD []

/-- Replace the binding list of one event of the dispatcher. -/
def setBindings (st : DState) (ev : EvId) (l : List Binding) : DState :=
  { st with events := st.events.set ev l }

/-- Modelled from the spec: `ls_event_dispatcher_destroy` (missing
`ls_eventing.c`): decrement the reference count; actual teardown (freeing
the dispatcher's memory) happens only when the count reaches zero. -/
def ls_event_dispatcher_destroy (st : DState) : DState :=
  if st.refcount - 1 = 0 then { st with refcount := 0, alive := false }
  else { st with refcount := st.refcount - 1 }

/-- Modelled from the spec: `ls_event_bind` (missing `ls_eventing.c`)
acting on the dispatcher state.  Rebinding an existing callback never
allocates and always succeeds; appending a fresh node costs one
allocator request and fails with no state change (beyond consuming the
request) when the allocator returns null. -/
def ls_event_bind (st : DState) (ev : EvId) (cb : Cb) (arg : Arg)
    (alloc : AllocOracle) : Bool × DState :=
  if (getBindings st ev).any (fun b => b.cb = cb) then
    (true, setBindings st ev (bindList st.running (getBindings st ev) cb arg))
  else if alloc st.allocIdx then
    (true, { setBindings st ev (bindList st.running (getBindings st ev) cb arg)
             with allocIdx := st.allocIdx + 1 })
  else (false, { st with allocIdx := st.allocIdx + 1 })

/-- Modelled from the spec: `ls_event_unbind` (missing `ls_eventing.c`)
acting on the dispatcher state; never fails. -/
def ls_event_unbind (st : DState) (ev : EvId) (cb : Cb) : DState :=
  setBindings st ev (unbindList st.running (getBindings st ev) cb)

/-- Modelled from the spec: one dispatcher operation performed by a
running callback (missing `ls_eventing.c`).  A nested trigger observes
`running = true`, so it only enqueues a moment at the queue's tail (one
allocator request); returns the updated state, the updated handled bit of
the event data, and the log entries produced. -/
def runAct (alloc : AllocOracle) (st : DState) (eh : Bool) :
    Act → DState × Bool × List LogEntry
  | .setHandled b => (st, b, [])
  | .trigger ev resCb =>
    if alloc st.allocIdx then
      ({ st with allocIdx := st.allocIdx + 1,
                 queue := st.queue ++ [⟨ev, 0, resCb⟩] }, eh, [])
    else ({ st with allocIdx := st.allocIdx + 1 }, eh, [])
  | .bindAct ev cb arg => ((ls_event_bind st ev cb arg alloc).2, eh, [])
  | .unbindAct ev cb => (ls_event_unbind st ev cb, eh, [])
  | .destroy =>
    let st2 := ls_event_dispatcher_destroy st
    (st2, eh, [.destroyCall st2.alive])

/-- Run the whole body of a callback, threading state and handled bit. -/
def runActs (alloc : AllocOracle) (st : DState) (eh : Bool) :
    List Act → DState × Bool × List LogEntry
  | [] => (st, eh, [])
  | a :: rest =>
    let r1 := runAct alloc st eh a
    let r2 := runActs alloc r1.1 r1.2.1 rest
    (r2.1, r2.2.1, r1.2.2 ++ r2.2.2)

/-- Effect of a callback body on the handled bit of its event data alone
(the bit evolves independently of the dispatcher state). -/
def applyHandled (acts : List Act) (h : Bool) : Bool :=
  acts.foldl (fun h a => match a with | .setHandled b => b | _ => h) h

/-- Modelled from the spec: the binding-list traversal of one moment
(missing `ls_eventing.c`).  Advance through the (live, possibly mutating)
list by position; skip nodes whose `pending_add` or `pending_remove` flag
is set; otherwise invoke the callback with the moment's current handled
bit and OR its event data's bit back into the moment.  `fuel` bounds the
number of steps (a model artifact; `none` means fuel ran out). -/
def deliverBindings (alloc : AllocOracle) (env : Env) :
    Nat → EvId → Nat → Bool → DState → Option (DState × Bool × List LogEntry)
  | 0, _, _, _, _ => none
  | fuel + 1, ev, i, handled, st =>
    match (getBindings st ev).get? i with
    | none => some (st, handled, [])
    | some b =>
      if b.pending_add || b.pending_remove then
        deliverBindings alloc env fuel ev (i + 1) handled st
      else
        match deliverBindings alloc env fuel ev (i + 1)
            (handled || (runActs alloc st handled (env b.cb)).2.1)
            (runActs alloc st handled (env b.cb)).1 with
        | none => none
        | some (st2, h2, lg2) =>
          some (st2, h2, .cbCall b.cb ev handled ::
            ((runActs alloc st handled (env b.cb)).2.2 ++ lg2))

/-- Modelled from the spec: processing of one dequeued moment (missing
`ls_eventing.c`): walk the binding list with the handled bit starting
false, reconcile the event's binding list, then invoke the result
callback (if any) with the accumulated OR. -/
def processMoment (alloc : AllocOracle) (env : Env) (fuel : Nat) (m : Moment)
    (st : DState) : Option (DState × List LogEntry) :=
  match deliverBindings alloc env fuel m.ev 0 false st with
  | none => none
  | some (st1, handled, lg) =>
    match m.resCb with
    | some rc =>
      some (setBindings st1 m.ev (reconcileList (getBindings st1 m.ev)),
        lg ++ [.resultCall rc m.ev handled])
    | none =>
      some (setBindings st1 m.ev (reconcileList (getBindings st1 m.ev)), lg)

/-- Modelled from the spec: the drain loop of §4.3 (missing
`ls_eventing.c`): repeatedly pop the front moment and process it; nested
triggers appended to the queue are processed by this same loop, after the
current moment completes. -/
def drainLoop (alloc : AllocOracle) (env : Env) :
    Nat → DState → Option (DState × List LogEntry)
  | 0, _ => none
  | fuel + 1, st =>
    match st.queue with
    | [] => some (st, [])
    | m :: rest =>
      match processMoment alloc env fuel m { st with queue := rest } with
      | none => none
      | some (st1, lg) =>
        match drainLoop alloc env fuel st1 with
        | none => none
        | some (st2, lg2) => some (st2, lg ++ lg2)

/-- Modelled from the spec: the full drain of §4.3 (missing
`ls_eventing.c`): set `running`, take a self-reference for the drain
scope, run the loop, clear `running` and release the reference — which
performs the deferred teardown if a callback destroyed the dispatcher. -/
def drain (alloc : AllocOracle) (env : Env) (fuel : Nat) (st : DState) :
    Option (DState × List LogEntry) :=
  match drainLoop alloc env fuel
      { st with running := true, refcount := st.refcount + 1 } with
  | none => none
  | some (st1, lg) =>
    some (ls_event_dispatcher_destroy { st1 with running := false }, lg)

/-- Modelled from the spec: `ls_event_trigger` (missing `ls_eventing.c`).
Allocating the moment costs one allocator request; on failure the call
returns false with `LS_ERR_NO_MEMORY` and no binding is invoked, no
queue mutation occurs and no result callback is called.  On success the
moment is enqueued and, when the dispatcher is not already running, the
queue is drained before returning.  `none` means the fuel ran out (model
artifact). -/
def ls_event_trigger (alloc : AllocOracle) (env : Env) (fuel : Nat)
    (ev : EvId) (payload : Arg) (resCb : Option Nat) (st : DState) :
    Option (Bool × Option ls_err × DState × List LogEntry) :=
  if alloc st.allocIdx then
    let st1 := { st with allocIdx := st.allocIdx + 1,
                         queue := st.queue ++ [⟨ev, payload, resCb⟩] }
    if st.running then some (true, none, st1, [])
    else
      match drain alloc env fuel st1 with
      | none => none
      | some (st2, lg) => some (true, none, st2, lg)
  else some (false, some .LS_ERR_NO_MEMORY, { st with allocIdx := st.allocIdx + 1 }, [])

/-- Modelled from the spec: `ls_event_prepare_trigger` (missing
`ls_eventing.c`): pre-allocate the resources for one moment (one
allocator request); fails with `LS_ERR_NO_MEMORY` when the allocator
returns null. -/
def ls_event_prepare_trigger (alloc : AllocOracle) (st : DState) :
    Except ls_err DState :=
  if alloc st.allocIdx then .ok { st with allocIdx := st.allocIdx + 1 }
  else .error .LS_ERR_NO_MEMORY

/-- Modelled from the spec: `ls_event_trigger_prepared` (missing
`ls_eventing.c`): host the moment in the pre-allocated trigger data, so
the call itself performs no allocator request and cannot fail; then drain
as usual when not already running.  `none` means the fuel ran out (model
artifact). -/
def ls_event_trigger_prepared (alloc : AllocOracle) (env : Env) (fuel : Nat)
    (ev : EvId) (payload : Arg) (resCb : Option Nat) (st : DState) :
    Option (DState × List LogEntry) :=
  let st1 := { st with queue := st.queue ++ [⟨ev, payload, resCb⟩] }
  if st.running then some (st1, [])
  else drain alloc env fuel st1

/-- Allocation oracle that always succeeds. -/
def allocAll : AllocOracle := fun _ => true

/-- Allocation oracle that returns null for every request, as installed
by `mock_oom_malloc` in the tests. -/
def allocNone : AllocOracle := fun _ => false

/-- Fresh dispatcher holding the given events, as after
`ls_event_dispatcher_create` plus event creation and binding: not
running, reference count one, memory live. -/
def mkDState (events : List (List Binding)) : DState :=
  { events := events, queue := [], running := false, refcount := 1,
    alive := true, allocIdx := 0 }

/-- Binding node with clear flags, as produced by binds outside a drain. -/
def bnd (c : Cb) : Binding := ⟨c, 0, false, false⟩

/-- Callback environment mirroring the callbacks of `ls_eventing_test.c`:
0 is `mock_evt1_callback1` (marks the event handled);
1 is `nesting_callbackB` (logs only);
2 is `nesting_callbackC` (marks the event handled);
3 is `double_nesting_callback` (triggers event 1 twice);
4 is `mock_evt_bind1_callback1` (binds callback 0 on event 0);
5 is `mock_evt_unbind_callback1` (unbinds itself from event 0);
6 unbinds callback 0 from event 0 (a sibling that has not yet fired);
7 is `nesting_callbackA` (triggers event 1 with result callback 101);
8 is `destroying_callback` (destroys its own dispatcher);
9 is `mock_nofail_callback` (does nothing). -/
def testEnv : Env := fun c =>
  match c with
  | 0 => [.setHandled true]
  | 2 => [.setHandled true]
  | 3 => [.trigger 1 none, .trigger 1 none]
  | 4 => [.bindAct 0 0 0]
  | 5 => [.unbindAct 0 5]
  | 6 => [.unbindAct 0 0]
  | 7 => [.trigger 1 (some 101)]
  | 8 => [.destroy]
  | _ => []

/-- Dispatcher of `ls_event_trigger_nested_test`: event 0 is `mockEvent1`
with `nesting_callbackA` and `nesting_callbackB` bound, event 1 is
`mockEvent2` with `nesting_callbackB` and `nesting_callbackC` bound. -/
def stNested : DState := mkDState [[bnd 7, bnd 1], [bnd 1, bnd 2]]

/-- Dispatcher of `ls_event_trigger_double_nested_test`. -/
def stDouble : DState := mkDState [[bnd 3], [bnd 1]]

/-- Dispatcher of `ls_event_trigger_event_unbind_test`. -/
def stUnbindSelf : DState := mkDState [[bnd 5, bnd 0]]

/-- Dispatcher where the first callback unbinds a sibling that has not
yet fired in the moment. -/
def stUnbindSibling : DState := mkDState [[bnd 6, bnd 0]]

/-- Dispatcher of `ls_event_trigger_event_unbind_middle_test`. -/
def stUnbindMiddle : DState := mkDState [[bnd 0, bnd 5, bnd 1]]

/-- Dispatcher of `ls_event_trigger_event_simple_defer_bind_test`. -/
def stDeferBind : DState := mkDState [[bnd 4]]

/-- Dispatcher of `ls_event_trigger_deferred_destroy_test`. -/
def stDestroy : DState := mkDState [[bnd 8]]

/-- Dispatcher of `ls_event_trigger_prepared_test`. -/
def stPrepared : DState := mkDState [[bnd 9]]

/-- Environment in which every callback is `mock_nofail_callback`: no
dispatcher re-entry at all. -/
def noUnbindEnv : Env := fun _ => []

/-- Inductive check that every callback invocation of a moment observed
exactly the handled bit accumulated after its predecessor: the entry's
bit equals the running accumulator, which then ORs in the bit the
callback's own body produces. -/
def obsOk (env : Env) : Bool → List LogEntry → Bool
  | _, [] => true
  | h, e :: rest =>
    (e.obs == h) && obsOk env (h || applyHandled (env e.cbId) h) rest

/-- Accumulated OR of the handled bits produced by a moment's callbacks,
starting from `h`. -/
def chainOut (env : Env) : Bool → List LogEntry → Bool
  | h, [] => h
  | h, e :: rest => chainOut env (h || applyHandled (env e.cbId) h) rest

/-- State of the nested-trigger test at the start of the drain loop: the
outer moment is queued, the dispatcher is running and the drain scope
holds its self-reference. -/
def stNestedQueued : DState :=
  { stNested with
    queue := [⟨0, 0, some 100⟩], running := true,
    refcount := 2, allocIdx := 1 }

/-- One binding list extends another: every node keeps its position, its
callback and its pending-add flag, and its pending-remove flag can only
be cleared, never set; new nodes may appear past the end.  This is how an
event's binding list evolves while its moment is delivered, provided no
callback unbinds from this event. -/
def ExtendsB (l l2 : List Binding) : Prop :=
  ∀ i b, l.get? i = some b → ∃ b2, l2.get? i = some b2 ∧
    b2.cb = b.cb ∧ b2.pending_add = b.pending_add ∧
    (b2.pending_remove = true → b.pending_remove = true)

/-- Lookup skips a block whose entries all fail the predicate. -/
lemma findIdx?_append_of_none {α : Type} (p : α → Bool) (l1 l2 : List α)
    (i : Nat) (h : ∀ x ∈ l1, p x = false) :
    List.findIdx? p (l1 ++ l2) i = List.findIdx? p l2 (i + l1.length) := by
  induction l1 generalizing i with
  | nil => simp
  | cons x l1 ih =>
    simp only [List.cons_append, List.findIdx?_cons]
    rw [h x (by simp), if_neg (by simp)]
    rw [ih (i + 1) (fun y hy => h y (by simp [hy]))]
    congr 1
    simp [List.length_cons]
    omega

/-- C8: event creation fails with `LS_ERR_INVALID_ARG` on the empty name
and with `LS_ERR_INVALID_STATE` when the ASCII-case-folded name collides
with an existing event; after a successful creation, lookup returns the
new event for every ASCII case variant of the name while
`ls_event_get_name` returns the original casing. -/
theorem C8_create_event_case_rules (events : EventNames) (name : String) :
    (name = "" →
      ls_event_dispatcher_create_event events name =
        .error .LS_ERR_INVALID_ARG) ∧
    (name ≠ "" → (∃ n ∈ events, asciiLower n = asciiLower name) →
      ls_event_dispatcher_create_event events name =
        .error .LS_ERR_INVALID_STATE) ∧
    (∀ events2, ls_event_dispatcher_create_event events name = .ok events2 →
      ∀ v, asciiLower v = asciiLower name →
        ls_event_dispatcher_get_event events2 v = some events.length ∧
        ls_event_get_name events2 events.length = some name) := by
  refine ⟨?_, ?_, ?_⟩
  · intro h
    simp [ls_event_dispatcher_create_event, h]
  · intro hne hex
    obtain ⟨n, hn, hfold⟩ := hex
    rw [ls_event_dispatcher_create_event, if_neg hne, if_pos]
    exact List.any_eq_true.mpr ⟨n, hn, by simp [hfold]⟩
  · intro events2 hok v hv
    rw [ls_event_dispatcher_create_event] at hok
    by_cases h1 : name = ""
    · simp [h1] at hok
    rw [if_neg h1] at hok
    by_cases h2 : events.any (fun n => asciiLower n == asciiLower name) = true
    · simp [h2] at hok
    rw [if_neg h2] at hok
    have hev2 : events2 = events ++ [name] := by
      cases hok
      rfl
    subst hev2
    constructor
    · rw [ls_event_dispatcher_get_event,
          findIdx?_append_of_none _ events [name] 0 ?_]
      · rw [List.findIdx?_cons, if_pos (by simp [hv])]
        simp
      · intro x hx
        have := List.any_eq_false.mp (Bool.eq_false_iff.mpr h2) x hx
        simp only [hv]
        simpa using this
    · rw [ls_event_get_name]
      exact List.get?_concat_length events name

/-- Witness for C8 at the inputs of `ls_event_create_errors_test`:
creating `"evt"` then `"EVT"` fails with `LS_ERR_INVALID_STATE`, the
empty name fails with `LS_ERR_INVALID_ARG`, and lookup of `"Evt"` finds
the event created as `"evt"` with its original casing. -/
theorem C8_create_event_case_rules_witness :
    ls_event_dispatcher_create_event ["evt"] "EVT" =
      .error .LS_ERR_INVALID_STATE ∧
    ls_event_dispatcher_create_event [] "" = .error .LS_ERR_INVALID_ARG ∧
    (ls_event_dispatcher_get_event ["evt"] "Evt" = some 0 ∧
      ls_event_get_name ["evt"] 0 = some "evt") := by
  refine ⟨?_, ?_, ?_⟩
  · exact (C8_create_event_case_rules ["evt"] "EVT").2.1 (by decide)
      ⟨"evt", by simp, by decide⟩
  · exact (C8_create_event_case_rules [] "").1 rfl
  · exact (C8_create_event_case_rules [] "evt").2.2 ["evt"] rfl
      "Evt" (by decide)

/-- C3: when `ls_event_trigger` returns false with `LS_ERR_NO_MEMORY`,
no binding of the event was invoked and no result callback was called
(the log is empty), and the dispatcher's moment queue — indeed every
binding list — is unchanged. -/
theorem C3_trigger_nomem_no_partial_state (alloc : AllocOracle) (env : Env)
    (fuel : Nat) (ev : EvId) (payload : Arg) (resCb : Option Nat)
    (st st2 : DState) (lg : List LogEntry)
    (h : ls_event_trigger alloc env fuel ev payload resCb st =
      some (false, some .LS_ERR_NO_MEMORY, st2, lg)) :
    st2.queue = st.queue ∧ st2.events = st.events ∧ lg = [] := by
  rw [ls_event_trigger] at h
  by_cases ha : alloc st.allocIdx
  · rw [if_pos ha] at h
    by_cases hr : st.running
    · rw [if_pos hr] at h
      simp at h
    · rw [if_neg hr] at h
      cases hd : drain alloc env fuel
          { st with allocIdx := st.allocIdx + 1,
                    queue := st.queue ++ [⟨ev, payload, resCb⟩] } with
      | none => rw [hd] at h; exact absurd h (by simp)
      | some r => rw [hd] at h; simp at h
  · rw [if_neg ha] at h
    have h2 : st2 = { st with allocIdx := st.allocIdx + 1 } ∧ lg = [] := by
      simpa using h.symm
    obtain ⟨h2, h3⟩ := h2
    subst h2
    exact ⟨rfl, rfl, h3⟩

/-- Witness for C3: triggering `mockEvent1` of the nested-test dispatcher
under the always-failing allocator fails with `LS_ERR_NO_MEMORY` and
leaves the queue, the binding lists and the audit trail untouched. -/
theorem C3_trigger_nomem_witness :
    ({ stNested with allocIdx := 1 } : DState).queue = stNested.queue ∧
    ({ stNested with allocIdx := 1 } : DState).events = stNested.events ∧
    ([] : List LogEntry) = [] :=
  C3_trigger_nomem_no_partial_state allocNone testEnv 20 0 0 none stNested
    { stNested with allocIdx := 1 } [] (by decide)

/-- Rebinding a callback that already has a node at position `i` (the
first such node) rewrites exactly that node: position kept, argument
replaced, pending-remove cancelled. -/
lemma bindList_found (r : Bool) (cb : Cb) (a : Arg) :
    ∀ (l : List Binding) (i : Nat) (b : Binding),
      l.get? i = some b → b.cb = cb →
      (∀ j bj, j < i → l.get? j = some bj → bj.cb ≠ cb) →
      bindList r l cb a = l.set i { b with arg := a, pending_remove := false }
  | [], i, b, hget, _, _ => by simp at hget
  | x :: rest, 0, b, hget, hcb, _ => by
    simp only [List.get?_cons_zero, Option.some.injEq] at hget
    subst hget
    simp only [bindList, if_pos hcb, List.set]
  | x :: rest, i + 1, b, hget, hcb, hfirst => by
    have hxne : x.cb ≠ cb := hfirst 0 x (Nat.succ_pos i) rfl
    simp only [List.get?_cons_succ] at hget
    simp only [bindList, if_neg hxne, List.set]
    rw [bindList_found r cb a rest i b hget hcb
      (fun j bj hj hg =>
        hfirst (j + 1) bj (Nat.succ_lt_succ hj) (by simpa using hg))]

/-- Writing the binding list of a valid event stores exactly that list. -/
lemma getBindings_setBindings_self (st : DState) (ev : EvId)
    (l : List Binding) (h : ev < st.events.length) :
    getBindings (setBindings st ev l) ev = l := by
  simp only [getBindings, setBindings]
  rw [List.get?_set_eq]
  cases hg : st.events.get? ev with
  | none =>
    exfalso
    rw [List.get?_eq_none] at hg
    exact absurd h (Nat.not_lt.mpr hg)
  | some l0 => simp

/-- An event with a nonempty binding list is a valid index. -/
lemma valid_of_getBindings_ne_nil (st : DState) (ev : EvId)
    (h : getBindings st ev ≠ []) : ev < st.events.length := by
  by_contra hlt
  have hnone : st.events.get? ev = none :=
    List.get?_eq_none.mpr (Nat.le_of_not_lt hlt)
  rw [getBindings, hnone] at h
  simp at h

/-- C4, counterexample to the claim as stated: rebinding callback 7 —
currently bound with argument 1 and not pending-remove — with the new
argument 2 succeeds but does NOT leave the binding list unchanged: the
stored argument is overwritten (as `ls_event_bindings_test` requires). -/
theorem C4_rebind_counterexample :
    (ls_event_bind (mkDState [[⟨7, 1, false, false⟩]]) 0 7 2 allocAll).1
      = true ∧
    getBindings
      (ls_event_bind (mkDState [[⟨7, 1, false, false⟩]]) 0 7 2 allocAll).2 0
      = [⟨7, 2, false, false⟩] ∧
    getBindings
      (ls_event_bind (mkDState [[⟨7, 1, false, false⟩]]) 0 7 2 allocAll).2 0
      ≠ [⟨7, 1, false, false⟩] := by
  decide

/-- C4, amended: a second `ls_event_bind` of a callback whose (first)
binding is not pending-remove returns success, keeps the node at its
original position and leaves every other node unchanged, but overwrites
the stored user argument with the new one. -/
theorem C4_rebind_amended (st : DState) (ev : EvId) (cb : Cb) (a2 : Arg)
    (alloc : AllocOracle) (i : Nat) (b : Binding)
    (hget : (getBindings st ev).get? i = some b) (hcb : b.cb = cb)
    (hpr : b.pending_remove = false)
    (hfirst : ∀ j bj, j < i → (getBindings st ev).get? j = some bj →
      bj.cb ≠ cb) :
    (ls_event_bind st ev cb a2 alloc).1 = true ∧
    (ls_event_bind st ev cb a2 alloc).2 =
      setBindings st ev ((getBindings st ev).set i { b with arg := a2 }) := by
  have hmem : b ∈ getBindings st ev := List.get?_mem hget
  have hany : (getBindings st ev).any (fun x => x.cb = cb) = true :=
    List.any_eq_true.mpr ⟨b, hmem, by simp [hcb]⟩
  have hb2 : ({ b with arg := a2, pending_remove := false } : Binding) =
      { b with arg := a2 } := by
    cases b
    simp_all
  rw [ls_event_bind, if_pos hany]
  refine ⟨rfl, ?_⟩
  rw [bindList_found st.running cb a2 _ i b hget hcb hfirst, hb2]

/-- Witness for C4's amended theorem: rebinding callback 7, stored with
argument 1 at position 0, with new argument 2. -/
theorem C4_rebind_amended_witness :
    (ls_event_bind (mkDState [[⟨7, 1, false, false⟩]]) 0 7 2 allocAll).1
      = true ∧
    (ls_event_bind (mkDState [[⟨7, 1, false, false⟩]]) 0 7 2 allocAll).2 =
      setBindings (mkDState [[⟨7, 1, false, false⟩]]) 0
        ((getBindings (mkDState [[⟨7, 1, false, false⟩]]) 0).set 0
          ⟨7, 2, false, false⟩) :=
  C4_rebind_amended (mkDState [[⟨7, 1, false, false⟩]]) 0 7 2 allocAll 0
    ⟨7, 1, false, false⟩ (by decide) rfl rfl
    (fun j bj hj _ => absurd hj (Nat.not_lt_zero j))

/-- C10: rebinding a bound callback with a different argument while the
dispatcher is not running succeeds, keeps the node at its original
position (every other position unchanged, same length), and replaces the
stored user argument with the new one. -/
theorem C10_rebind_updates_argument (st : DState) (ev : EvId) (cb : Cb)
    (a2 : Arg) (alloc : AllocOracle) (i : Nat) (b : Binding)
    (hrun : st.running = false)
    (hget : (getBindings st ev).get? i = some b) (hcb : b.cb = cb)
    (hfirst : ∀ j bj, j < i → (getBindings st ev).get? j = some bj →
      bj.cb ≠ cb) :
    (ls_event_bind st ev cb a2 alloc).1 = true ∧
    (getBindings (ls_event_bind st ev cb a2 alloc).2 ev).get? i =
      some { b with arg := a2, pending_remove := false } ∧
    (∀ j, j ≠ i → (getBindings (ls_event_bind st ev cb a2 alloc).2 ev).get? j
      = (getBindings st ev).get? j) ∧
    (getBindings (ls_event_bind st ev cb a2 alloc).2 ev).length =
      (getBindings st ev).length := by
  have hmem : b ∈ getBindings st ev := List.get?_mem hget
  have hany : (getBindings st ev).any (fun x => x.cb = cb) = true :=
    List.any_eq_true.mpr ⟨b, hmem, by simp [hcb]⟩
  have hvalid : ev < st.events.length :=
    valid_of_getBindings_ne_nil st ev (by
      intro hnil
      rw [hnil] at hget
      simp at hget)
  rw [ls_event_bind, if_pos hany]
  have hres : getBindings
      (setBindings st ev (bindList st.running (getBindings st ev) cb a2)) ev
      = bindList st.running (getBindings st ev) cb a2 :=
    getBindings_setBindings_self st ev _ hvalid
  have hbl := bindList_found st.running cb a2 _ i b hget hcb hfirst
  refine ⟨rfl, ?_, ?_, ?_⟩
  · rw [hres, hbl, List.get?_set_eq, hget]
    rfl
  · intro j hj
    rw [hres, hbl, List.get?_set_ne _ _ (fun h => hj h.symm)]
  · rw [hres, hbl]
    simp

/-- Witness for C10: rebinding callback 7, stored with argument 1 at
position 0 of a two-node list, with new argument 2, while not running. -/
theorem C10_rebind_updates_argument_witness :
    (ls_event_bind (mkDState [[⟨7, 1, false, false⟩, bnd 1]]) 0 7 2
      allocAll).1 = true ∧
    (getBindings (ls_event_bind (mkDState [[⟨7, 1, false, false⟩, bnd 1]])
      0 7 2 allocAll).2 0).get? 0 = some ⟨7, 2, false, false⟩ ∧
    (∀ j, j ≠ 0 → (getBindings (ls_event_bind
      (mkDState [[⟨7, 1, false, false⟩, bnd 1]]) 0 7 2 allocAll).2 0).get? j
      = (getBindings (mkDState [[⟨7, 1, false, false⟩, bnd 1]]) 0).get? j) ∧
    (getBindings (ls_event_bind (mkDState [[⟨7, 1, false, false⟩, bnd 1]])
      0 7 2 allocAll).2 0).length =
      (getBindings (mkDState [[⟨7, 1, false, false⟩, bnd 1]]) 0).length :=
  C10_rebind_updates_argument (mkDState [[⟨7, 1, false, false⟩, bnd 1]]) 0 7
    2 allocAll 0 ⟨7, 1, false, false⟩ rfl (by decide) rfl
    (fun j bj hj _ => absurd hj (Nat.not_lt_zero j))

/-- C6: after a moment completes, reconciliation has unlinked every
pending-remove node (and cleared every pending-add flag); a callback that
unbinds itself does not stop the bindings after it from firing in the
same moment (`ls_event_trigger_event_unbind_test`, and in the middle of
three as in `ls_event_trigger_event_unbind_middle_test`); a callback that
unbinds a sibling that has not yet fired causes it to be skipped. -/
theorem C6_unbind_during_delivery :
    (∀ l : List Binding,
      (reconcileList l).all
        (fun b => !b.pending_remove && !b.pending_add) = true) ∧
    (ls_event_trigger allocAll testEnv 20 0 0 none stUnbindSelf =
      some (true, none,
        { stUnbindSelf with events := [[bnd 0]], allocIdx := 1 },
        [.cbCall 5 0 false, .cbCall 0 0 false])) ∧
    (ls_event_trigger allocAll testEnv 20 0 0 none stUnbindSibling =
      some (true, none,
        { stUnbindSibling with events := [[bnd 6]], allocIdx := 1 },
        [.cbCall 6 0 false])) ∧
    (ls_event_trigger allocAll testEnv 20 0 0 none stUnbindMiddle =
      some (true, none,
        { stUnbindMiddle with events := [[bnd 0, bnd 1]], allocIdx := 1 },
        [.cbCall 0 0 false, .cbCall 5 0 true, .cbCall 1 0 true])) := by
  refine ⟨?_, by decide, by decide, by decide⟩
  intro l
  rw [List.all_eq_true]
  intro b hb
  rw [reconcileList] at hb
  obtain ⟨x, hx, rfl⟩ := List.mem_map.mp hb
  have hxr := (List.mem_filter.mp hx).2
  simp at hxr ⊢
  exact hxr

/-- C7: binding a new callback while the dispatcher is running appends
it at the tail with `pending_add` set; reconciliation clears every
`pending_add` flag at the end of the round; and, as in
`ls_event_trigger_event_simple_defer_bind_test`, the deferred binding is
not invoked during the current trigger round but is invoked normally on
the next trigger. -/
theorem C7_bind_while_running_deferred :
    (∀ (l : List Binding) (cb : Cb) (a : Arg),
      (∀ b ∈ l, b.cb ≠ cb) →
      bindList true l cb a = l ++ [⟨cb, a, true, false⟩]) ∧
    (∀ l : List Binding, ∀ b ∈ reconcileList l, b.pending_add = false) ∧
    (ls_event_trigger allocAll testEnv 20 0 0 none stDeferBind =
      some (true, none,
        { stDeferBind with events := [[bnd 4, bnd 0]], allocIdx := 2 },
        [.cbCall 4 0 false])) ∧
    (ls_event_trigger allocAll testEnv 20 0 0 none
        { stDeferBind with events := [[bnd 4, bnd 0]], allocIdx := 2 } =
      some (true, none,
        { stDeferBind with events := [[bnd 4, bnd 0]], allocIdx := 3 },
        [.cbCall 4 0 false, .cbCall 0 0 false])) := by
  refine ⟨?_, ?_, by decide, by decide⟩
  · intro l cb a h
    induction l with
    | nil => rfl
    | cons x rest ih =>
      rw [bindList, if_neg (h x (List.mem_cons_self x rest))]
      rw [ih (fun b hb => h b (List.mem_cons_of_mem x hb))]
      rfl
  · intro l b hb
    rw [reconcileList] at hb
    obtain ⟨x, _, rfl⟩ := List.mem_map.mp hb
    rfl

/-- Witness for C7: the deferred bind of `mock_evt_bind1_callback1`
appends `mock_evt1_callback1` pending-add at the tail. -/
theorem C7_bind_while_running_deferred_witness :
    bindList true [bnd 4] 0 0 = [bnd 4] ++ [⟨0, 0, true, false⟩] :=
  C7_bind_while_running_deferred.1 [bnd 4] 0 0 (by decide)

/-- C2: a destroy of the dispatcher performed while the drain holds its
self-reference (reference count at least two) only decrements the count —
the dispatcher's memory stays live at the time control returns to the
destroying callback; in the full run of
`ls_event_trigger_deferred_destroy_test`, the destroy call observes the
memory still live, and by the time `ls_event_trigger` returns the
outermost drain has released its reference and torn the dispatcher
down. -/
theorem C2_destroy_from_callback_deferred :
    (∀ (alloc : AllocOracle) (st : DState) (eh : Bool),
      2 ≤ st.refcount →
      runAct alloc st eh Act.destroy =
        ({ st with refcount := st.refcount - 1 }, eh,
          [.destroyCall st.alive])) ∧
    (ls_event_trigger allocAll testEnv 20 0 0 none stDestroy =
      some (true, none,
        { stDestroy with refcount := 0, alive := false, allocIdx := 1 },
        [.cbCall 8 0 false, .destroyCall true])) := by
  constructor
  · intro alloc st eh h
    have hne : ¬st.refcount - 1 = 0 := by omega
    simp only [runAct, ls_event_dispatcher_destroy, if_neg hne]
  · decide

/-- Witness for C2: a dispatcher with reference count two (its own
reference plus the drain scope's) whose destroy leaves the memory
live. -/
theorem C2_destroy_from_callback_deferred_witness :
    runAct allocAll { stDestroy with refcount := 2 } false Act.destroy =
      ({ stDestroy with refcount := 1 }, false, [.destroyCall true]) :=
  C2_destroy_from_callback_deferred.1 allocAll
    { stDestroy with refcount := 2 } false (by decide)

/-- Handled bit left by one dispatcher operation of a callback body. -/
lemma runAct_handled (alloc : AllocOracle) (st : DState) (eh : Bool)
    (a : Act) : (runAct alloc st eh a).2.1 =
      (match a with | .setHandled b => b | _ => eh) := by
  cases a with
  | setHandled b => rfl
  | trigger ev rc => by_cases h : alloc st.allocIdx <;> simp [runAct, h]
  | bindAct ev cb arg => rfl
  | unbindAct ev cb => rfl
  | destroy => rfl

/-- The handled bit a callback leaves in its event data depends only on
its body, not on the dispatcher state: it equals `applyHandled`. -/
lemma runActs_handled (alloc : AllocOracle) :
    ∀ (acts : List Act) (st : DState) (eh : Bool),
      (runActs alloc st eh acts).2.1 = applyHandled acts eh
  | [], _, _ => rfl
  | a :: rest, st, eh => by
    rw [runActs]
    rw [applyHandled, List.foldl_cons]
    rw [runActs_handled alloc rest (runAct alloc st eh a).1
      (runAct alloc st eh a).2.1, runAct_handled]
    rfl

/-- A callback body logs only destroy entries. -/
lemma runAct_log_destroy (alloc : AllocOracle) (st : DState) (eh : Bool)
    (a : Act) : ∀ e ∈ (runAct alloc st eh a).2.2, ∃ v, e = .destroyCall v := by
  cases a with
  | setHandled b => simp [runAct]
  | trigger ev rc =>
    by_cases h : alloc st.allocIdx <;> simp [runAct, h]
  | bindAct ev cb arg => simp [runAct]
  | unbindAct ev cb => simp [runAct]
  | destroy =>
    intro e he
    simp only [runAct, List.mem_singleton] at he
    exact ⟨_, he⟩

/-- A whole callback body logs only destroy entries. -/
lemma runActs_log_destroy (alloc : AllocOracle) :
    ∀ (acts : List Act) (st : DState) (eh : Bool),
      ∀ e ∈ (runActs alloc st eh acts).2.2, ∃ v, e = .destroyCall v
  | [], _, _ => by simp [runActs]
  | a :: rest, st, eh => by
    intro e he
    rw [runActs] at he
    rcases List.mem_append.mp he with h1 | h2
    · exact runAct_log_destroy alloc st eh a e h1
    · exact runActs_log_destroy alloc rest _ _ e h2

/-- Callback-invocation entries of a callback body's own log: none. -/
lemma runActs_filter_isCb (alloc : AllocOracle) (acts : List Act)
    (st : DState) (eh : Bool) :
    ((runActs alloc st eh acts).2.2).filter LogEntry.isCb = [] := by
  rw [List.filter_eq_nil]
  intro e he
  obtain ⟨v, rfl⟩ := runActs_log_destroy alloc acts st eh e he
  simp [LogEntry.isCb]

/-- Through one moment's traversal, every invoked callback observes the
accumulated handled bit of its predecessors and the final bit is the
accumulated OR. -/
lemma deliver_handled_chain (alloc : AllocOracle) (env : Env) :
    ∀ (fuel : Nat) (ev : EvId) (i : Nat) (hin : Bool) (st st2 : DState)
      (h2 : Bool) (lg : List LogEntry),
      deliverBindings alloc env fuel ev i hin st = some (st2, h2, lg) →
      obsOk env hin (lg.filter LogEntry.isCb) = true ∧
      h2 = chainOut env hin (lg.filter LogEntry.isCb)
  | 0, ev, i, hin, st, st2, h2, lg, h => by simp [deliverBindings] at h
  | fuel + 1, ev, i, hin, st, st2, h2, lg, h => by
    rw [deliverBindings] at h
    split at h
    · simp only [Option.some.injEq, Prod.mk.injEq] at h
      obtain ⟨-, rfl, rfl⟩ := h
      simp [obsOk, chainOut]
    · next b hg =>
      split at h
      · exact deliver_handled_chain alloc env fuel ev (i + 1) hin st st2 h2
          lg h
      · split at h
        · exact absurd h (by simp)
        · next st2' h2' lg2 hd =>
          simp only [Option.some.injEq, Prod.mk.injEq] at h
          obtain ⟨-, rfl, rfl⟩ := h
          have hIH := deliver_handled_chain alloc env fuel ev (i + 1)
            (hin || (runActs alloc st hin (env b.cb)).2.1)
            (runActs alloc st hin (env b.cb)).1 st2' h2' lg2 hd
          have hflt :
              ((LogEntry.cbCall b.cb ev hin ::
                ((runActs alloc st hin (env b.cb)).2.2 ++ lg2)).filter
                  LogEntry.isCb) =
              LogEntry.cbCall b.cb ev hin :: lg2.filter LogEntry.isCb := by
            rw [List.filter_cons, List.filter_append,
              runActs_filter_isCb alloc (env b.cb) st hin]
            simp [LogEntry.isCb]
          rw [hflt]
          have hap : (runActs alloc st hin (env b.cb)).2.1 =
              applyHandled (env b.cb) hin :=
            runActs_handled alloc (env b.cb) st hin
          constructor
          · rw [obsOk]
            have hobs : (LogEntry.cbCall b.cb ev hin).obs = hin := rfl
            have hcb : (LogEntry.cbCall b.cb ev hin).cbId = b.cb := rfl
            rw [hobs, hcb, beq_self_eq_true, Bool.true_and]
            rw [← hap]
            exact hIH.1
          · rw [chainOut]
            have hcb : (LogEntry.cbCall b.cb ev hin).cbId = b.cb := rfl
            rw [hcb, ← hap]
            exact hIH.2

/-- A correctly chained observation list is monotone: the handled bit
never falls back from true to false along the moment's callbacks. -/
lemma obsOk_chain (env : Env) :
    ∀ (l : List LogEntry) (h : Bool), obsOk env h l = true →
      List.Chain' (fun e1 e2 => e1.obs = true → e2.obs = true) l
  | [], _, _ => List.chain'_nil
  | [_], _, _ => by simp
  | e1 :: e2 :: rest, h, hok => by
    rw [obsOk, Bool.and_eq_true, beq_iff_eq] at hok
    obtain ⟨he1, hrest⟩ := hok
    have hchain := obsOk_chain env (e2 :: rest) _ hrest
    rw [List.chain'_cons]
    refine ⟨?_, hchain⟩
    intro h1
    rw [obsOk, Bool.and_eq_true, beq_iff_eq] at hrest
    rw [hrest.1]
    rw [he1] at h1
    rw [h1]
    simp

/-- C5: within a single moment, the handled bit observed by callback k+1
is exactly the accumulated bit after callback k (`obsOk` starting from
false), the bit never falls back from true to false while the moment's
bindings are delivered, and the result callback receives the OR of all
handled values produced by the moment's callbacks (`chainOut`). -/
theorem C5_handled_monotone_or (alloc : AllocOracle) (env : Env)
    (fuel : Nat) (m : Moment) (rc : Nat) (st st2 : DState)
    (lg : List LogEntry) (hrc : m.resCb = some rc)
    (h : processMoment alloc env fuel m st = some (st2, lg)) :
    obsOk env false (lg.filter LogEntry.isCb) = true ∧
    List.Chain' (fun e1 e2 => e1.obs = true → e2.obs = true)
      (lg.filter LogEntry.isCb) ∧
    (∃ pre, lg = pre ++ [.resultCall rc m.ev
      (chainOut env false (lg.filter LogEntry.isCb))]) := by
  rw [processMoment] at h
  split at h
  · exact absurd h (by simp)
  · next st1 handled lgd hd =>
    split at h
    · next rc' hrc2 =>
      rw [hrc] at hrc2
      obtain rfl : rc = rc' := by simpa using hrc2
      simp only [Option.some.injEq, Prod.mk.injEq] at h
      obtain ⟨-, rfl⟩ := h
      have hch := deliver_handled_chain alloc env fuel m.ev 0 false st st1
        handled lgd hd
      have hfl : (lgd ++ [LogEntry.resultCall rc m.ev handled]).filter
          LogEntry.isCb = lgd.filter LogEntry.isCb := by
        rw [List.filter_append]
        simp [LogEntry.isCb]
      rw [hfl]
      refine ⟨hch.1, obsOk_chain env _ _ hch.1, lgd, ?_⟩
      rw [← hch.2]
    · next hrc2 =>
      rw [hrc] at hrc2
      exact absurd hrc2 (by simp)

/-- Witness for C5 at the moment of
`ls_event_trigger_simple_results_test` extended with a second binding:
callback 0 marks the event handled, callback 1 then observes true, and
the result callback receives true. -/
theorem C5_handled_monotone_or_witness :
    obsOk testEnv false
      (([LogEntry.cbCall 0 0 false, .cbCall 1 0 true,
        .resultCall 100 0 true]).filter LogEntry.isCb) = true ∧
    List.Chain' (fun e1 e2 => e1.obs = true → e2.obs = true)
      (([LogEntry.cbCall 0 0 false, .cbCall 1 0 true,
        .resultCall 100 0 true]).filter LogEntry.isCb) ∧
    (∃ pre, ([LogEntry.cbCall 0 0 false, .cbCall 1 0 true,
        .resultCall 100 0 true]) = pre ++ [.resultCall 100 0
      (chainOut testEnv false (([LogEntry.cbCall 0 0 false,
        .cbCall 1 0 true, .resultCall 100 0 true]).filter
          LogEntry.isCb))]) :=
  C5_handled_monotone_or allocAll testEnv 10 ⟨0, 0, some 100⟩ 100
    (mkDState [[bnd 0, bnd 1]]) (mkDState [[bnd 0, bnd 1]])
    [LogEntry.cbCall 0 0 false, .cbCall 1 0 true, .resultCall 100 0 true]
    rfl (by decide)

/-- Binding never touches the moment queue. -/
lemma ls_event_bind_queue (st : DState) (ev : EvId) (cb : Cb) (arg : Arg)
    (alloc : AllocOracle) :
    (ls_event_bind st ev cb arg alloc).2.queue = st.queue := by
  rw [ls_event_bind]
  split
  · rfl
  · split <;> rfl

/-- A single dispatcher operation of a callback can only append moments
at the tail of the queue. -/
lemma runAct_queue_append (alloc : AllocOracle) (st : DState) (eh : Bool)
    (a : Act) : ∃ new, (runAct alloc st eh a).1.queue = st.queue ++ new := by
  cases a with
  | setHandled b => exact ⟨[], by simp [runAct]⟩
  | trigger ev rc =>
    by_cases h : alloc st.allocIdx
    · exact ⟨[⟨ev, 0, rc⟩], by simp [runAct, h]⟩
    · exact ⟨[], by simp [runAct, h]⟩
  | bindAct ev cb arg =>
    exact ⟨[], by simp [runAct, ls_event_bind_queue]⟩
  | unbindAct ev cb => exact ⟨[], by simp [runAct, ls_event_unbind, setBindings]⟩
  | destroy =>
    refine ⟨[], ?_⟩
    simp only [runAct, ls_event_dispatcher_destroy, List.append_nil]
    split <;> rfl

/-- A whole callback body can only append moments at the queue's tail. -/
lemma runActs_queue_append (alloc : AllocOracle) :
    ∀ (acts : List Act) (st : DState) (eh : Bool),
      ∃ new, (runActs alloc st eh acts).1.queue = st.queue ++ new
  | [], st, _ => ⟨[], by simp [runActs]⟩
  | a :: rest, st, eh => by
    obtain ⟨n1, h1⟩ := runAct_queue_append alloc st eh a
    obtain ⟨n2, h2⟩ := runActs_queue_append alloc rest (runAct alloc st eh a).1
      (runAct alloc st eh a).2.1
    refine ⟨n1 ++ n2, ?_⟩
    rw [runActs]
    rw [h2, h1, List.append_assoc]

/-- The traversal of one moment can only append moments at the tail of
the queue (nested triggers enqueue, they are never processed inline). -/
lemma deliver_queue_append (alloc : AllocOracle) (env : Env) :
    ∀ (fuel : Nat) (ev : EvId) (i : Nat) (hin : Bool) (st st2 : DState)
      (h2 : Bool) (lg : List LogEntry),
      deliverBindings alloc env fuel ev i hin st = some (st2, h2, lg) →
      ∃ new, st2.queue = st.queue ++ new
  | 0, ev, i, hin, st, st2, h2, lg, h => by simp [deliverBindings] at h
  | fuel + 1, ev, i, hin, st, st2, h2, lg, h => by
    rw [deliverBindings] at h
    split at h
    · simp only [Option.some.injEq, Prod.mk.injEq] at h
      obtain ⟨rfl, -, -⟩ := h
      exact ⟨[], by simp⟩
    · next b hg =>
      split at h
      · exact deliver_queue_append alloc env fuel ev (i + 1) hin st st2 h2
          lg h
      · split at h
        · exact absurd h (by simp)
        · next st2' h2' lg2 hd =>
          simp only [Option.some.injEq, Prod.mk.injEq] at h
          obtain ⟨rfl, -, -⟩ := h
          obtain ⟨n1, h1⟩ := runActs_queue_append alloc (env b.cb) st hin
          obtain ⟨n2, h2q⟩ := deliver_queue_append alloc env fuel ev (i + 1)
            (hin || (runActs alloc st hin (env b.cb)).2.1)
            (runActs alloc st hin (env b.cb)).1 st2' h2' lg2 hd
          exact ⟨n1 ++ n2, by rw [h2q, h1, List.append_assoc]⟩

/-- Processing one moment can only append moments at the queue's tail. -/
lemma processMoment_queue_append (alloc : AllocOracle) (env : Env)
    (fuel : Nat) (m : Moment) (st st2 : DState) (lg : List LogEntry)
    (h : processMoment alloc env fuel m st = some (st2, lg)) :
    ∃ new, st2.queue = st.queue ++ new := by
  rw [processMoment] at h
  split at h
  · exact absurd h (by simp)
  · next st1 handled lgd hd =>
    have hq := deliver_queue_append alloc env fuel m.ev 0 false st st1
      handled lgd hd
    split at h <;>
    · simp only [Option.some.injEq, Prod.mk.injEq] at h
      obtain ⟨rfl, -⟩ := h
      exact hq

/-- C1: delivery is breadth-first and FIFO.  Generally: when the drain
loop runs with moment `m` at the head of the queue, it first processes
`m` completely — every entry of `m`'s log, bindings and result callback
included, precedes everything else in the drain's log — while the
moments nested-triggered during `m` are only appended behind the rest of
the FIFO queue, which the loop then continues to process.  Concretely,
in `ls_event_trigger_nested_test` all of `mockEvent1`'s bindings and its
result callback run before any binding of the nested-triggered
`mockEvent2`, and in `ls_event_trigger_double_nested_test` triggering
`mockEvent2` twice delivers its binding twice, in trigger order. -/
theorem C1_breadth_first_fifo :
    (∀ (alloc : AllocOracle) (env : Env) (fuel : Nat) (st stF : DState)
      (m : Moment) (rest : List Moment) (lg : List LogEntry),
      st.queue = m :: rest →
      drainLoop alloc env (fuel + 1) st = some (stF, lg) →
      ∃ st1 lgm lgr newMs,
        processMoment alloc env fuel m { st with queue := rest } =
          some (st1, lgm) ∧
        st1.queue = rest ++ newMs ∧
        drainLoop alloc env fuel st1 = some (stF, lgr) ∧
        lg = lgm ++ lgr) ∧
    (ls_event_trigger allocAll testEnv 20 0 0 (some 100) stNested =
      some (true, none, { stNested with allocIdx := 2 },
        [.cbCall 7 0 false, .cbCall 1 0 false, .resultCall 100 0 false,
         .cbCall 1 1 false, .cbCall 2 1 false, .resultCall 101 1 true])) ∧
    (ls_event_trigger allocAll testEnv 20 0 0 none stDouble =
      some (true, none, { stDouble with allocIdx := 3 },
        [.cbCall 3 0 false, .cbCall 1 1 false, .cbCall 1 1 false])) := by
  refine ⟨?_, by decide, by decide⟩
  intro alloc env fuel st stF m rest lg hq hdl
  rw [drainLoop] at hdl
  split at hdl
  · next hnil =>
    rw [hq] at hnil
    exact absurd hnil (by simp)
  · next m' rest' hcons =>
    rw [hq] at hcons
    obtain ⟨rfl, rfl⟩ : m = m' ∧ rest = rest' := by simpa using hcons
    split at hdl
    · exact absurd hdl (by simp)
    · next st1 lgm hpm =>
      split at hdl
      · exact absurd hdl (by simp)
      · next st2 lgr hdr =>
        simp only [Option.some.injEq, Prod.mk.injEq] at hdl
        obtain ⟨rfl, rfl⟩ := hdl
        obtain ⟨newMs, hnew⟩ := processMoment_queue_append alloc env fuel m
          { st with queue := rest } st1 lgm hpm
        exact ⟨st1, lgm, lgr, newMs, hpm, hnew, hdr, rfl⟩

/-- Witness for C1 at the nested-trigger test: the drain loop processes
the outer `mockEvent1` moment first and only appends the nested
`mockEvent2` moment. -/
theorem C1_breadth_first_fifo_witness :
    ∃ st1 lgm lgr newMs,
      processMoment allocAll testEnv 19 ⟨0, 0, some 100⟩
        { stNestedQueued with queue := [] } = some (st1, lgm) ∧
      st1.queue = [] ++ newMs ∧
      drainLoop allocAll testEnv 19 st1 =
        some ({ stNested with
          queue := [], running := true, refcount := 2,
          allocIdx := 2 }, lgr) ∧
      ([LogEntry.cbCall 7 0 false, .cbCall 1 0 false,
        .resultCall 100 0 false, .cbCall 1 1 false, .cbCall 2 1 false,
        .resultCall 101 1 true]) = lgm ++ lgr :=
  C1_breadth_first_fifo.1 allocAll testEnv 19 stNestedQueued
    { stNested with
      queue := [], running := true, refcount := 2,
      allocIdx := 2 }
    ⟨0, 0, some 100⟩ [] _ rfl (by decide)

/-- Every binding list extends itself. -/
lemma ExtendsB_refl (l : List Binding) : ExtendsB l l :=
  fun _ b hb => ⟨b, hb, rfl, rfl, fun h => h⟩

/-- Extension of binding lists is transitive. -/
lemma ExtendsB_trans {l1 l2 l3 : List Binding} (h12 : ExtendsB l1 l2)
    (h23 : ExtendsB l2 l3) : ExtendsB l1 l3 := by
  intro i b hb
  obtain ⟨b2, hb2, hcb2, ha2, hr2⟩ := h12 i b hb
  obtain ⟨b3, hb3, hcb3, ha3, hr3⟩ := h23 i b2 hb2
  exact ⟨b3, hb3, hcb3.trans hcb2, ha3.trans ha2, fun h => hr2 (hr3 h)⟩

/-- Binding (even a rebind) only extends the list: positions, callbacks
and pending-add flags are kept, pending-remove can only be cancelled. -/
lemma bindList_extends (r : Bool) (cb : Cb) (a : Arg) :
    ∀ l : List Binding, ExtendsB l (bindList r l cb a)
  | [] => fun i b hb => by simp at hb
  | x :: rest => by
    intro i b hb
    rw [bindList]
    by_cases hx : x.cb = cb
    · rw [if_pos hx]
      cases i with
      | zero =>
        simp only [List.get?_cons_zero, Option.some.injEq] at hb
        subst hb
        exact ⟨_, rfl, rfl, rfl, by simp⟩
      | succ i =>
        simp only [List.get?_cons_succ] at hb ⊢
        exact ⟨b, hb, rfl, rfl, fun h => h⟩
    · rw [if_neg hx]
      cases i with
      | zero =>
        simp only [List.get?_cons_zero, Option.some.injEq] at hb
        subst hb
        exact ⟨_, rfl, rfl, rfl, fun h => h⟩
      | succ i =>
        simp only [List.get?_cons_succ] at hb ⊢
        exact bindList_extends r cb a rest i b hb

/-- Replacing another event's binding list leaves this one unchanged. -/
lemma getBindings_setBindings_other (st : DState) (e ev : EvId)
    (l : List Binding) (hne : e ≠ ev) :
    getBindings (setBindings st e l) ev = getBindings st ev := by
  simp only [getBindings, setBindings]
  rw [List.get?_set_ne _ _ hne]

/-- Writing the bind result back extends the event's binding list (valid
or not: an out-of-range event index leaves everything unchanged). -/
lemma setBindings_bindList_extends (st : DState) (ev : EvId) (cb : Cb)
    (a : Arg) (r : Bool) :
    ExtendsB (getBindings st ev)
      (getBindings (setBindings st ev (bindList r (getBindings st ev) cb a))
        ev) := by
  by_cases hv : ev < st.events.length
  · rw [getBindings_setBindings_self st ev _ hv]
    exact bindList_extends r cb a (getBindings st ev)
  · have hnone : st.events.get? ev = none :=
      List.get?_eq_none.mpr (Nat.le_of_not_lt hv)
    have hset : st.events.set ev (bindList r (getBindings st ev) cb a) =
        st.events := by
      apply List.set_eq_of_length_le
      exact Nat.le_of_not_lt hv
    rw [setBindings, hset]
    exact ExtendsB_refl _

/-- A single callback operation that is not an unbind on event `ev` can
only extend `ev`'s binding list. -/
lemma runAct_extends (alloc : AllocOracle) (st : DState) (eh : Bool)
    (a : Act) (ev : EvId) (hn : ∀ cb, a ≠ Act.unbindAct ev cb) :
    ExtendsB (getBindings st ev) (getBindings (runAct alloc st eh a).1 ev)
    := by
  cases a with
  | setHandled b => exact ExtendsB_refl _
  | trigger ev' rc =>
    by_cases h : alloc st.allocIdx
    · simp only [runAct, if_pos h]
      exact ExtendsB_refl _
    · simp only [runAct, if_neg h]
      exact ExtendsB_refl _
  | bindAct ev' cb arg =>
    simp only [runAct]
    rw [ls_event_bind]
    by_cases hev : ev' = ev
    · subst hev
      split
      · exact setBindings_bindList_extends st ev' cb arg st.running
      · split
        · exact setBindings_bindList_extends st ev' cb arg st.running
        · exact ExtendsB_refl _
    · split
      · rw [getBindings_setBindings_other st ev' ev _ hev]
        exact ExtendsB_refl _
      · split
        · have : getBindings
              { setBindings st ev'
                  (bindList st.running (getBindings st ev') cb arg) with
                allocIdx := st.allocIdx + 1 } ev =
              getBindings (setBindings st ev'
                (bindList st.running (getBindings st ev') cb arg)) ev := rfl
          rw [this, getBindings_setBindings_other st ev' ev _ hev]
          exact ExtendsB_refl _
        · exact ExtendsB_refl _
  | unbindAct ev' cb =>
    have hne : ev' ≠ ev := by
      intro hc
      exact absurd (by rw [hc]) (hn cb)
    simp only [runAct, ls_event_unbind]
    rw [getBindings_setBindings_other st ev' ev _ hne]
    exact ExtendsB_refl _
  | destroy =>
    simp only [runAct, ls_event_dispatcher_destroy]
    split
    · exact ExtendsB_refl _
    · exact ExtendsB_refl _

/-- A whole callback body that never unbinds from event `ev` can only
extend `ev`'s binding list. -/
lemma runActs_extends (alloc : AllocOracle) :
    ∀ (acts : List Act) (st : DState) (eh : Bool) (ev : EvId),
      (∀ a ∈ acts, ∀ cb, a ≠ Act.unbindAct ev cb) →
      ExtendsB (getBindings st ev)
        (getBindings (runActs alloc st eh acts).1 ev)
  | [], st, eh, ev, _ => ExtendsB_refl _
  | a :: rest, st, eh, ev, hn => by
    rw [runActs]
    exact ExtendsB_trans
      (runAct_extends alloc st eh a ev (hn a (List.mem_cons_self a rest)))
      (runActs_extends alloc rest (runAct alloc st eh a).1
        (runAct alloc st eh a).2.1 ev
        (fun a2 ha2 => hn a2 (List.mem_cons_of_mem a ha2)))

/-- When no callback in the environment unbinds from event `ev`, the
traversal of one of `ev`'s moments invokes every binding that was clear
of pending flags when the traversal reached its position — in
particular, completion of the traversal delivers every binding that was
non-pending at its start, whatever the allocator answers. -/
lemma deliver_invokes_all (alloc : AllocOracle) (env : Env) (ev : EvId)
    (henv : ∀ c, ∀ a ∈ env c, ∀ cb, a ≠ Act.unbindAct ev cb) :
    ∀ (fuel : Nat) (i : Nat) (hin : Bool) (st st2 : DState) (h2 : Bool)
      (lg : List LogEntry),
      deliverBindings alloc env fuel ev i hin st = some (st2, h2, lg) →
      ∀ j b, i ≤ j → (getBindings st ev).get? j = some b →
        b.pending_add = false → b.pending_remove = false →
        ∃ hb, LogEntry.cbCall b.cb ev hb ∈ lg
  | 0, i, hin, st, st2, h2, lg, h => by simp [deliverBindings] at h
  | fuel + 1, i, hin, st, st2, h2, lg, h => by
    rw [deliverBindings] at h
    split at h
    · next hg =>
      intro j b hij hj _ _
      rw [List.get?_eq_none] at hg
      have hnone : (getBindings st ev).get? j = none :=
        List.get?_eq_none.mpr (le_trans hg hij)
      rw [hnone] at hj
      exact absurd hj (by simp)
    · next bi hg =>
      split at h
      · next hp =>
        intro j b hij hj hba hbr
        rcases Nat.lt_or_ge i j with hlt | hge
        · exact deliver_invokes_all alloc env ev henv fuel (i + 1) hin st
            st2 h2 lg h j b hlt hj hba hbr
        · have hji : j = i := Nat.le_antisymm hge hij
          subst hji
          rw [hg] at hj
          obtain rfl : bi = b := by simpa using hj
          rw [hba, hbr] at hp
          exact absurd hp (by simp)
      · next hp =>
        split at h
        · exact absurd h (by simp)
        · next st2' h2' lg2 hd =>
          simp only [Option.some.injEq, Prod.mk.injEq] at h
          obtain ⟨-, -, rfl⟩ := h
          intro j b hij hj hba hbr
          rcases Nat.lt_or_ge i j with hlt | hge
          · have hext := runActs_extends alloc (env bi.cb) st hin ev
              (henv bi.cb)
            obtain ⟨b2, hb2, hcb2, hadd2, hrem2⟩ := hext j b hj
            have hba2 : b2.pending_add = false := by rw [hadd2, hba]
            have hbr2 : b2.pending_remove = false := by
              cases hb2r : b2.pending_remove
              · rfl
              · have := hrem2 hb2r
                rw [hbr] at this
                exact absurd this (by simp)
            obtain ⟨hb, hmem⟩ := deliver_invokes_all alloc env ev henv fuel
              (i + 1) (hin || (runActs alloc st hin (env bi.cb)).2.1)
              (runActs alloc st hin (env bi.cb)).1 st2' h2' lg2 hd j b2
              hlt hb2 hba2 hbr2
            rw [hcb2] at hmem
            exact ⟨hb, List.mem_cons_of_mem _ (List.mem_append_right _ hmem)⟩
          · have hji : j = i := Nat.le_antisymm hge hij
            subst hji
            rw [hg] at hj
            obtain rfl : bi = b := by simpa using hj
            exact ⟨hin, List.mem_cons_self _ _⟩

/-- C9: `ls_event_trigger_prepared` consumes the pre-allocated trigger
data: the call itself makes no allocator request, and delivery does not
depend on the allocator — for ANY allocation oracle, including the one
that returns null for every request, every binding of the event that was
free of pending flags when the call was made (no callback unbinding from
this event) is invoked during the call.  Concretely, in
`ls_event_trigger_prepared_test`, after a successful
`ls_event_prepare_trigger`, triggering prepared under the always-failing
allocator still invokes `mock_nofail_callback` and cannot fail. -/
theorem C9_trigger_prepared_no_alloc_no_fail :
    (∀ (alloc : AllocOracle) (env : Env) (fuel : Nat) (ev : EvId)
      (payload : Arg) (resCb : Option Nat) (st stF : DState)
      (lg : List LogEntry),
      (∀ c, ∀ a ∈ env c, ∀ cb, a ≠ Act.unbindAct ev cb) →
      st.running = false → st.queue = [] →
      ls_event_trigger_prepared alloc env fuel ev payload resCb st =
        some (stF, lg) →
      ∀ j b, (getBindings st ev).get? j = some b →
        b.pending_add = false → b.pending_remove = false →
        ∃ hb, LogEntry.cbCall b.cb ev hb ∈ lg) ∧
    (ls_event_prepare_trigger allocAll stPrepared =
      .ok { stPrepared with allocIdx := 1 }) ∧
    (ls_event_trigger_prepared allocNone testEnv 20 0 0 none
      { stPrepared with allocIdx := 1 } =
      some ({ stPrepared with allocIdx := 1 }, [.cbCall 9 0 false])) := by
  refine ⟨?_, rfl, by decide⟩
  intro alloc env fuel ev payload resCb st stF lg henv hrun hq h j b hj hba
    hbr
  rw [ls_event_trigger_prepared, hrun] at h
  rw [if_neg (by simp)] at h
  rw [hq] at h
  simp only [List.nil_append] at h
  rw [drain] at h
  split at h
  · exact absurd h (by simp)
  · next st1 lg1 hd =>
    simp only [Option.some.injEq, Prod.mk.injEq] at h
    obtain ⟨-, rfl⟩ := h
    cases fuel with
    | zero => simp [drainLoop] at hd
    | succ f =>
      rw [drainLoop] at hd
      split at hd
      · next hnil => simp at hnil
      · next m' rest' hcons =>
        have hmr : m' = (⟨ev, payload, resCb⟩ : Moment) ∧ rest' = [] := by
          have h1 := hcons
          simp at h1
          exact ⟨h1.1.symm, h1.2⟩
        obtain ⟨rfl, rfl⟩ := hmr
        split at hd
        · exact absurd hd (by simp)
        · next st3 lgm hpm =>
          split at hd
          · exact absurd hd (by simp)
          · next st4 lgr hdr =>
            simp only [Option.some.injEq, Prod.mk.injEq] at hd
            obtain ⟨-, rfl⟩ := hd
            rw [processMoment] at hpm
            split at hpm
            · exact absurd hpm (by simp)
            · next st5 handled lgd hdel =>
              have hinv := deliver_invokes_all alloc env ev henv f 0 false
                _ st5 handled lgd hdel j b (Nat.zero_le j) hj hba hbr
              obtain ⟨hb, hmem⟩ := hinv
              refine ⟨hb, ?_⟩
              split at hpm <;>
              · simp only [Option.some.injEq, Prod.mk.injEq] at hpm
                obtain ⟨-, rfl⟩ := hpm
                simp [hmem]

/-- Witness for C9 at the prepared-trigger test: the environment never
unbinds, the dispatcher is idle, and the prepared trigger under the
always-null allocator delivers the single clear binding (callback 9). -/
theorem C9_trigger_prepared_no_alloc_no_fail_witness :
    ∃ hb, LogEntry.cbCall 9 0 hb ∈ [LogEntry.cbCall 9 0 false] :=
  C9_trigger_prepared_no_alloc_no_fail.1 allocNone noUnbindEnv 20 0 0 none
    { stPrepared with allocIdx := 1 } { stPrepared with allocIdx := 1 }
    [.cbCall 9 0 false]
    (fun c a ha cb => absurd ha (List.not_mem_nil a)) rfl rfl (by decide)
    0 (bnd 9) rfl rfl rfl
